import Mathlib

/-!
Verification of the filter parser of `hq` (`src/filter/parser.rs`).

The repository source provides the tree reducer `parse_filter` together with
the `Field` record; the pest grammar file (`filter/grammar.pest`) and the
error wrapper (`filter/error.rs`) are not part of the given source, so they
are modelled from the specification (sections 4.1 and 4.3).
-/

namespace Hq

/-- The grammar rule identifiers, mirroring the `Rule` enum that pest derives
from `filter/grammar.pest` (rules named in the spec: filter, segment, name,
quoted_name, label, numeric_index). -/
inductive Rule where
  | filter
  | segment
  | name
  | quoted_name
  | label
  | numeric_index
deriving DecidableEq, Repr

/-- A byte span inside the input, as carried by pest pairs and errors. -/
structure Span where
  startPos : Nat
  endPos : Nat
deriving DecidableEq, Repr

/-- A parse-tree node (pest `Pair`): its rule, the matched text returned by
`as_str`, and its span. -/
structure Pair where
  rule : Rule
  text : String
  span : Span
deriving DecidableEq, Repr

/-- A top-level segment node: the list of its child pairs in document order. -/
abbrev Segment := List Pair

/-- Modelled from the spec: the two shapes of a pest error variant — a
`ParsingError` with expected (positive) and unexpected (negative) rules, or a
`CustomError` with a message. -/
inductive ErrorVariant where
  | parsingError (positives : List Rule) (negatives : List Rule)
  | customError (message : String)
deriving DecidableEq, Repr

/-- Modelled from the spec: `FilterError` (from the missing `filter/error.rs`)
wraps the grammar engine's native error, preserving the variant and the
positioned span (spec section 4.3). -/
structure FilterError where
  variant : ErrorVariant
  span : Span
deriving DecidableEq, Repr

/-- One segment of a filter, from `src/filter/parser.rs`: an attribute, block,
or object name, block labels or object keys, and a list index. -/
structure Field where
  name : String
  labels : List String
  index : Option Nat
deriving DecidableEq, Repr

/-- The ASCII double-quote character. -/
def dquote : Char := Char.ofNat 34

/-- First character of a `name`: `ALPHA | "_"` (spec section 4.1). -/
def isNameStart (c : Char) : Bool := c.isAlpha || c = '_'

/-- Continuation character of a `name`: `ALPHA | DIGIT | "_"`. -/
def isNameCont (c : Char) : Bool := c.isAlpha || c.isDigit || c = '_'

/-- Modelled from the spec: match the `name` rule
`(ALPHA | "_") (ALPHA | DIGIT | "_")*` at position `pos`, returning the
produced pair, the remaining characters and the new position. -/
def parseNameTok : List Char → Nat → Option (Pair × List Char × Nat)
  | [], _ => none
  | c :: cs, pos =>
    if isNameStart c then
      let body := cs.takeWhile isNameCont
      let rest := cs.dropWhile isNameCont
      some (⟨Rule.name, String.mk (c :: body), ⟨pos, pos + 1 + body.length⟩⟩,
        rest, pos + 1 + body.length)
    else none

/-- Modelled from the spec: match a quoted string
`DQUOTE (any char except DQUOTE)* DQUOTE`, producing a pair of rule `r` whose
text is the unquoted contents (spec section 3: a quoted name is stored as the
unquoted contents of the quoted string). Fails on an unterminated quote. -/
def parseQuotedTok (r : Rule) : List Char → Nat → Option (Pair × List Char × Nat)
  | [], _ => none
  | c :: cs, pos =>
    if c = dquote then
      let body := cs.takeWhile (fun d => d ≠ dquote)
      match cs.dropWhile (fun d => d ≠ dquote) with
      | [] => none
      | _ :: rest =>
        some (⟨r, String.mk body, ⟨pos + 1, pos + 1 + body.length⟩⟩,
          rest, pos + 1 + body.length + 1)
    else none

/-- Modelled from the spec: match the `numeric_index` rule `DIGIT+`. -/
def parseIndexTok (cs : List Char) (pos : Nat) : Option (Pair × List Char × Nat) :=
  let digits := cs.takeWhile Char.isDigit
  if digits.isEmpty then none
  else
    some (⟨Rule.numeric_index, String.mk digits, ⟨pos, pos + digits.length⟩⟩,
      cs.dropWhile Char.isDigit, pos + digits.length)

/-- Modelled from the spec: match one qualifier,
`"{" quoted_name "}"` (a label) or `"[" numeric_index "]"` (an index). -/
def parseQualifier : List Char → Nat → Option (Pair × List Char × Nat)
  | '{' :: cs, pos =>
    match parseQuotedTok Rule.label cs (pos + 1) with
    | some (p, '}' :: rest, pos2) => some (p, rest, pos2 + 1)
    | _ => none
  | '[' :: cs, pos =>
    match parseIndexTok cs (pos + 1) with
    | some (p, ']' :: rest, pos2) => some (p, rest, pos2 + 1)
    | _ => none
  | _, _ => none

/-- Modelled from the spec: match `qualifier*` greedily (PEG repetition).
`fuel` bounds the number of iterations; every successful qualifier consumes at
least one character, so any `fuel ≥ cs.length` is exact. -/
def parseQualifiers : Nat → List Char → Nat → (List Pair × List Char × Nat)
  | 0, cs, pos => ([], cs, pos)
  | fuel + 1, cs, pos =>
    match parseQualifier cs pos with
    | some (p, rest, pos2) =>
      let r := parseQualifiers fuel rest pos2
      (p :: r.1, r.2.1, r.2.2)
    | none => ([], cs, pos)

/-- Modelled from the spec: match the `segment` rule
`"." (name | quoted_name) qualifier*`, producing the segment's children in
document order. -/
def parseSegment (fuel : Nat) : List Char → Nat → Option (Segment × List Char × Nat)
  | '.' :: cs, pos =>
    match parseNameTok cs (pos + 1) with
    | some (p, rest, pos2) =>
      let r := parseQualifiers fuel rest pos2
      some (p :: r.1, r.2.1, r.2.2)
    | none =>
      match parseQuotedTok Rule.quoted_name cs (pos + 1) with
      | some (p, rest, pos2) =>
        let r := parseQualifiers fuel rest pos2
        some (p :: r.1, r.2.1, r.2.2)
      | none => none
  | _, _ => none

/-- Modelled from the spec: match `segment+` greedily. -/
def parseSegments : Nat → List Char → Nat → (List Segment × List Char × Nat)
  | 0, cs, pos => ([], cs, pos)
  | fuel + 1, cs, pos =>
    match parseSegment fuel cs pos with
    | some (s, rest, pos2) =>
      let r := parseSegments fuel rest pos2
      (s :: r.1, r.2.1, r.2.2)
    | none => ([], cs, pos)

/-- Modelled from the spec: the grammar engine's entry point
`Filter::parse(Rule::filter, input)` for `filter ::= segment+` anchored at
both ends of the input. On failure it returns a positioned `ParsingError`
with a non-empty set of expected rules; the top-level pairs of a successful
parse are the segment nodes. -/
def filterParse (input : String) : Except FilterError (List Segment) :=
  let cs := input.toList
  let r := parseSegments cs.length cs 0
  match r.1, r.2.1 with
  | [], _ => .error ⟨.parsingError [Rule.segment] [], ⟨r.2.2, r.2.2⟩⟩
  | _ :: _, _ :: _ => .error ⟨.parsingError [Rule.segment] [], ⟨r.2.2, r.2.2⟩⟩
  | s :: ss, [] => .ok (s :: ss)

/-- The largest value of the Rust `usize` type on a 64-bit platform. -/
def USIZE_MAX : Nat := 2 ^ 64 - 1

/-- Numeric value of a digit string (most significant digit first). -/
def digitsVal (l : List Char) : Nat := l.foldl (fun a c => a * 10 + (c.toNat - 48)) 0

/-- Model of Rust `str::parse::<usize>()` restricted to its use in
`parse_filter`: on a non-empty all-digit string it returns the value when it
fits in `usize` and fails on overflow; on anything else it fails. -/
def parseUsize (s : String) : Option Nat :=
  let cs := s.toList
  if cs ≠ [] ∧ cs.all Char.isDigit then
    if digitsVal cs ≤ USIZE_MAX then some (digitsVal cs) else none
  else none

/-- The inner loop of `parse_filter` (`src/filter/parser.rs`, lines 62-104):
fold a segment's children into the accumulated name, labels and index.
A `name` or `quoted_name` child overwrites the name; a `label` child appends
its text; a `numeric_index` child parses as `usize`, overwriting the index,
and on parse failure returns `Error::new_from_span(ParsingError { positives:
vec![], negatives: vec![inner.as_rule()] }, inner.as_span())`; any other rule
returns the `CustomError` "not implemented" at the child's span. -/
def reduceChildren : List Pair → String → List String → Option Nat →
    Except FilterError (String × List String × Option Nat)
  | [], name, labels, index => .ok (name, labels, index)
  | inner :: rest, name, labels, index =>
    match inner.rule with
    | Rule.name => reduceChildren rest inner.text labels index
    | Rule.quoted_name => reduceChildren rest inner.text labels index
    | Rule.label => reduceChildren rest name (labels ++ [inner.text]) index
    | Rule.numeric_index =>
      match parseUsize inner.text with
      | some i => reduceChildren rest name labels (some i)
      | none => .error ⟨.parsingError [] [inner.rule], inner.span⟩
    | _ => .error ⟨.customError "not implemented", inner.span⟩

/-- The outer loop of `parse_filter` (`src/filter/parser.rs`, lines 61-113):
reduce each segment in order; push the constructed `Field` only when its name
is non-empty. -/
def reducePairs : List Segment → Except FilterError (List Field)
  | [] => .ok []
  | seg :: rest =>
    match reduceChildren seg "" [] none with
    | .error e => .error e
    | .ok (name, labels, index) =>
      match reducePairs rest with
      | .error e => .error e
      | .ok fields =>
        if name ≠ "" then .ok (⟨name, labels, index⟩ :: fields) else .ok fields

/-- `parse_filter` (`src/filter/parser.rs`, lines 58-115): parse `input` with
the grammar and reduce the resulting segment pairs to a vector of `Field`s,
propagating the grammar engine's error through the `FilterError` wrapper. -/
def parse_filter (input : String) : Except FilterError (List Field) :=
  match filterParse input with
  | .error e => .error e
  | .ok pairs => reducePairs pairs

/-- `true` exactly on successful parse results. -/
def isOk (r : Except FilterError (List Field)) : Bool :=
  match r with
  | .ok _ => true
  | .error _ => false

/-- The `Field` a single segment node contributes to the output of
`parse_filter`, if any: the reduction of its children when that succeeds with
a non-empty name. -/
def segmentField (seg : Segment) : Option Field :=
  match reduceChildren seg "" [] none with
  | .ok (n, l, i) => if n ≠ "" then some ⟨n, l, i⟩ else none
  | .error _ => none

/-- Well-formedness of a child pair as produced by the grammar: its rule is
one of the four kinds the reducer recognizes, and a `numeric_index` pair
carries a non-empty all-digit text. -/
def goodPair (p : Pair) : Prop :=
  p.rule = Rule.name ∨ p.rule = Rule.quoted_name ∨ p.rule = Rule.label ∨
    (p.rule = Rule.numeric_index ∧ p.text.toList ≠ [] ∧
      p.text.toList.all Char.isDigit = true)

/-- A `numeric_index` pair whose digit value exceeds `USIZE_MAX`. -/
def overflows (p : Pair) : Bool :=
  p.rule == Rule.numeric_index && decide (USIZE_MAX < digitsVal p.text.toList)

/-- Reducing a segment's children never depends on anything but its
arguments; erroring segments propagate their error. A segment reducing to an
empty name contributes nothing: `reducePairs` skips it. -/
theorem reducePairs_drops_empty (seg : Segment) (rest : List Segment)
    (l : List String) (i : Option Nat)
    (h : reduceChildren seg "" [] none = .ok ("", l, i)) :
    reducePairs (seg :: rest) = reducePairs rest := by
  simp only [reducePairs, h]
  cases reducePairs rest <;> simp

/-- A successful `reducePairs` run returns exactly the per-segment fields, in
segment order, skipping segments without a contributed field. -/
theorem reducePairs_eq_filterMap (segs : List Segment) (fields : List Field)
    (h : reducePairs segs = .ok fields) :
    fields = segs.filterMap segmentField := by
  induction segs generalizing fields with
  | nil =>
    simp only [reducePairs, Except.ok.injEq] at h
    simp [← h]
  | cons seg rest ih =>
    unfold reducePairs at h
    cases hred : reduceChildren seg "" [] none with
    | error e => rw [hred] at h; cases h
    | ok t =>
      obtain ⟨n, l, i⟩ := t
      rw [hred] at h
      cases hrest : reducePairs rest with
      | error e => rw [hrest] at h; cases h
      | ok fs =>
        rw [hrest] at h
        by_cases hn : n ≠ ""
        · have hsf : segmentField seg = some ⟨n, l, i⟩ := by
            unfold segmentField; rw [hred]; simp [hn]
          simp only [if_pos hn, Except.ok.injEq] at h
          simp only [List.filterMap_cons, hsf]
          rw [← h, ih fs hrest]
        · have hn2 : n = "" := not_ne_iff.mp hn
          have hsf : segmentField seg = none := by
            unfold segmentField; rw [hred]; simp [hn2]
          simp only [if_neg hn, Except.ok.injEq] at h
          simp only [List.filterMap_cons, hsf]
          rw [← h]
          exact ih fs hrest

/-- A field contributed by a segment has a non-empty name. -/
theorem segmentField_name_ne (seg : Segment) (f : Field)
    (h : segmentField seg = some f) : f.name ≠ "" := by
  unfold segmentField at h
  split at h
  next n l i heq =>
    split at h
    next hn => cases h; exact hn
    next hn => cases h
  next e heq => cases h

/-- A pair produced by the `name` rule is well-formed. -/
theorem parseNameTok_good {cs : List Char} {pos : Nat} {p : Pair}
    {rest : List Char} {pos2 : Nat}
    (h : parseNameTok cs pos = some (p, rest, pos2)) : goodPair p := by
  match cs with
  | [] => cases h
  | c :: cs =>
    by_cases hs : isNameStart c = true
    · simp only [parseNameTok, if_pos hs, Option.some.injEq, Prod.mk.injEq] at h
      obtain ⟨h1, -, -⟩ := h
      subst h1
      exact Or.inl rfl
    · simp only [parseNameTok, if_neg hs] at h
      cases h

/-- A pair produced by a quoted-string rule carries that rule. -/
theorem parseQuotedTok_rule {r : Rule} {cs : List Char} {pos : Nat} {p : Pair}
    {rest : List Char} {pos2 : Nat}
    (h : parseQuotedTok r cs pos = some (p, rest, pos2)) : p.rule = r := by
  match cs with
  | [] => cases h
  | c :: cs =>
    by_cases hc : c = dquote
    · simp only [parseQuotedTok, if_pos hc] at h
      cases hdrop : cs.dropWhile (fun d => d ≠ dquote) with
      | nil => rw [hdrop] at h; cases h
      | cons d rest2 =>
        rw [hdrop] at h
        simp only [Option.some.injEq, Prod.mk.injEq] at h
        obtain ⟨h1, -, -⟩ := h
        subst h1
        rfl
    · simp only [parseQuotedTok, if_neg hc] at h
      cases h

/-- A pair produced by the `numeric_index` rule is well-formed: its text is
the matched non-empty run of digits. -/
theorem parseIndexTok_good {cs : List Char} {pos : Nat} {p : Pair}
    {rest : List Char} {pos2 : Nat}
    (h : parseIndexTok cs pos = some (p, rest, pos2)) : goodPair p := by
  simp only [parseIndexTok] at h
  split at h
  · cases h
  next hne =>
    simp only [Option.some.injEq, Prod.mk.injEq] at h
    obtain ⟨h1, -, -⟩ := h
    subst h1
    refine Or.inr (Or.inr (Or.inr ⟨rfl, ?_, ?_⟩))
    · simpa [List.isEmpty_iff] using hne
    · exact List.all_eq_true.mpr fun c hc => List.mem_takeWhile_imp hc

/-- A pair produced by the `qualifier` rule is well-formed. -/
theorem parseQualifier_good {cs : List Char} {pos : Nat} {p : Pair}
    {rest : List Char} {pos2 : Nat}
    (h : parseQualifier cs pos = some (p, rest, pos2)) : goodPair p := by
  unfold parseQualifier at h
  split at h
  · split at h
    next p2 rest2 pos3 heq =>
      simp only [Option.some.injEq, Prod.mk.injEq] at h
      obtain ⟨h1, -, -⟩ := h
      rw [← h1]
      exact Or.inr (Or.inr (Or.inl (parseQuotedTok_rule heq)))
    next => cases h
  · split at h
    next p2 rest2 pos3 heq =>
      simp only [Option.some.injEq, Prod.mk.injEq] at h
      obtain ⟨h1, -, -⟩ := h
      rw [← h1]
      exact parseIndexTok_good heq
    next => cases h
  · cases h

/-- Every pair produced by `qualifier*` is well-formed. -/
theorem parseQualifiers_good (fuel : Nat) (cs : List Char) (pos : Nat) :
    ∀ p ∈ (parseQualifiers fuel cs pos).1, goodPair p := by
  induction fuel generalizing cs pos with
  | zero => intro p hp; cases hp
  | succ fuel ih =>
    intro p hp
    unfold parseQualifiers at hp
    split at hp
    next q rest pos2 heq =>
      rcases List.mem_cons.mp hp with h | h
      · rw [h]; exact parseQualifier_good heq
      · exact ih rest pos2 p h
    next => cases hp

/-- Every pair inside a segment node produced by the grammar is
well-formed. -/
theorem parseSegment_good {fuel : Nat} {cs : List Char} {pos : Nat}
    {seg : Segment} {rest : List Char} {pos2 : Nat}
    (h : parseSegment fuel cs pos = some (seg, rest, pos2)) :
    ∀ p ∈ seg, goodPair p := by
  match cs with
  | [] => cases h
  | c :: cs =>
    unfold parseSegment at h
    split at h
    · split at h
      next p2 rest2 pos3 heq =>
        simp only [Option.some.injEq, Prod.mk.injEq] at h
        obtain ⟨h1, -, -⟩ := h
        intro p hp
        rw [← h1] at hp
        rcases List.mem_cons.mp hp with h2 | h2
        · rw [h2]; exact parseNameTok_good heq
        · exact parseQualifiers_good _ _ _ p h2
      next =>
        split at h
        next p2 rest2 pos3 heq =>
          simp only [Option.some.injEq, Prod.mk.injEq] at h
          obtain ⟨h1, -, -⟩ := h
          intro p hp
          rw [← h1] at hp
          rcases List.mem_cons.mp hp with h2 | h2
          · rw [h2]
            exact Or.inr (Or.inl (parseQuotedTok_rule heq))
          · exact parseQualifiers_good _ _ _ p h2
        next => cases h
    · cases h

/-- Every pair of every segment produced by `segment+` is well-formed. -/
theorem parseSegments_good (fuel : Nat) (cs : List Char) (pos : Nat) :
    ∀ seg ∈ (parseSegments fuel cs pos).1, ∀ p ∈ seg, goodPair p := by
  induction fuel generalizing cs pos with
  | zero => intro seg hseg; cases hseg
  | succ fuel ih =>
    intro seg hseg
    unfold parseSegments at hseg
    split at hseg
    next s rest pos2 heq =>
      rcases List.mem_cons.mp hseg with h | h
      · rw [h]; exact parseSegment_good heq
      · exact ih rest pos2 seg h
    next => cases hseg

/-- Every pair of every segment returned by a successful grammar parse is
well-formed. -/
theorem filterParse_good {input : String} {segs : List Segment}
    (h : filterParse input = .ok segs) :
    ∀ seg ∈ segs, ∀ p ∈ seg, goodPair p := by
  simp only [filterParse] at h
  split at h
  · cases h
  · cases h
  next s ss heq hnil =>
    simp only [Except.ok.injEq] at h
    intro seg hseg p hp
    refine parseSegments_good input.toList.length input.toList 0 seg ?_ p hp
    rw [heq]
    rw [← h] at hseg
    exact hseg

/-- Unpack an `overflows` test. -/
theorem overflows_true {p : Pair} (h : overflows p = true) :
    p.rule = Rule.numeric_index ∧ USIZE_MAX < digitsVal p.text.toList := by
  simpa [overflows] using h

/-- `str::parse::<usize>` on a non-empty digit string: the value when it
fits, a failure on overflow. -/
theorem parseUsize_digits {s : String} (h1 : s.toList ≠ [])
    (h2 : s.toList.all Char.isDigit = true) :
    parseUsize s =
      if digitsVal s.toList ≤ USIZE_MAX then some (digitsVal s.toList)
      else none := by
  simp only [parseUsize]
  rw [if_pos ⟨h1, h2⟩]

/-- Characterization of `overflows`. -/
theorem overflows_iff {p : Pair} :
    overflows p = true ↔
      p.rule = Rule.numeric_index ∧ USIZE_MAX < digitsVal p.text.toList := by
  simp [overflows]

/-- On a segment of well-formed children whose first overflowing index pair
is `q`, the reducer fails with the overflow error at `q`'s span, whatever the
accumulated state. -/
theorem reduceChildren_error_of_find :
    ∀ (children : List Pair), (∀ p ∈ children, goodPair p) →
    ∀ (q : Pair), children.find? overflows = some q →
    ∀ (name : String) (labels : List String) (index : Option Nat),
      reduceChildren children name labels index =
        .error ⟨.parsingError [] [Rule.numeric_index], q.span⟩ := by
  intro children
  induction children with
  | nil => intro _ q hf; cases hf
  | cons p rest ih =>
    intro hg q hf name labels index
    have hgp : goodPair p := hg p (List.mem_cons_self p rest)
    have hg2 : ∀ x ∈ rest, goodPair x := fun x hx => hg x (List.mem_cons_of_mem p hx)
    by_cases hov : overflows p = true
    · rw [List.find?_cons_of_pos rest hov] at hf
      injection hf with hpq
      subst hpq
      obtain ⟨hr, hlt⟩ := overflows_true hov
      rcases hgp with h1 | h1 | h1 | ⟨h1, hne, hdig⟩
      · rw [h1] at hr; cases hr
      · rw [h1] at hr; cases hr
      · rw [h1] at hr; cases hr
      · simp only [reduceChildren, h1, parseUsize_digits hne hdig,
          if_neg (not_le.mpr hlt)]
    · rw [List.find?_cons_of_neg rest hov] at hf
      rcases hgp with h1 | h1 | h1 | ⟨h1, hne, hdig⟩
      · simp only [reduceChildren, h1]; exact ih hg2 q hf _ _ _
      · simp only [reduceChildren, h1]; exact ih hg2 q hf _ _ _
      · simp only [reduceChildren, h1]; exact ih hg2 q hf _ _ _
      · have hle : digitsVal p.text.toList ≤ USIZE_MAX := by
          by_contra hgt
          exact hov (overflows_iff.mpr ⟨h1, not_le.mp hgt⟩)
        simp only [reduceChildren, h1, parseUsize_digits hne hdig, if_pos hle]
        exact ih hg2 q hf _ _ _

/-- On a segment of well-formed children with no overflowing index pair, the
reducer succeeds, whatever the accumulated state. -/
theorem reduceChildren_ok_of_none :
    ∀ (children : List Pair), (∀ p ∈ children, goodPair p) →
    children.find? overflows = none →
    ∀ (name : String) (labels : List String) (index : Option Nat),
      ∃ t, reduceChildren children name labels index = .ok t := by
  intro children
  induction children with
  | nil => intro _ _ name labels index; exact ⟨(name, labels, index), rfl⟩
  | cons p rest ih =>
    intro hg hf name labels index
    have hgp : goodPair p := hg p (List.mem_cons_self p rest)
    have hg2 : ∀ x ∈ rest, goodPair x := fun x hx => hg x (List.mem_cons_of_mem p hx)
    have hov : ¬overflows p = true :=
      (List.find?_eq_none.mp hf) p (List.mem_cons_self p rest)
    have hf2 : rest.find? overflows = none :=
      List.find?_eq_none.mpr fun x hx => (List.find?_eq_none.mp hf) x (List.mem_cons_of_mem p hx)
    rcases hgp with h1 | h1 | h1 | ⟨h1, hne, hdig⟩
    · simp only [reduceChildren, h1]; exact ih hg2 hf2 _ _ _
    · simp only [reduceChildren, h1]; exact ih hg2 hf2 _ _ _
    · simp only [reduceChildren, h1]; exact ih hg2 hf2 _ _ _
    · have hle : digitsVal p.text.toList ≤ USIZE_MAX := by
        by_contra hgt
        exact hov (overflows_iff.mpr ⟨h1, not_le.mp hgt⟩)
      simp only [reduceChildren, h1, parseUsize_digits hne hdig, if_pos hle]
      exact ih hg2 hf2 _ _ _

/-- Over segments of well-formed pairs whose first overflowing index pair (in
document order) is `q`, the reducer fails with the overflow error at `q`'s
span. -/
theorem reducePairs_error_of_find :
    ∀ (segs : List Segment), (∀ seg ∈ segs, ∀ p ∈ seg, goodPair p) →
    ∀ (q : Pair), segs.flatten.find? overflows = some q →
    reducePairs segs = .error ⟨.parsingError [] [Rule.numeric_index], q.span⟩ := by
  intro segs
  induction segs with
  | nil => intro _ q hf; cases hf
  | cons seg rest ih =>
    intro hg q hf
    have hgseg : ∀ p ∈ seg, goodPair p := hg seg (List.mem_cons_self seg rest)
    have hgrest : ∀ s ∈ rest, ∀ p ∈ s, goodPair p :=
      fun s hs => hg s (List.mem_cons_of_mem seg hs)
    rw [List.flatten_cons, List.find?_append] at hf
    cases hseg : seg.find? overflows with
    | some q1 =>
      rw [hseg, Option.or_some] at hf
      injection hf with hq
      subst hq
      have herr := reduceChildren_error_of_find seg hgseg q1 hseg "" [] none
      simp only [reducePairs, herr]
    | none =>
      rw [hseg, Option.none_or] at hf
      obtain ⟨t, ht⟩ := reduceChildren_ok_of_none seg hgseg hseg "" [] none
      obtain ⟨n, l, i⟩ := t
      have hrest := ih hgrest q hf
      simp only [reducePairs, ht, hrest]

/-- Claim C1 (counterexample): the input `."" ` consists of exactly one dotted
segment (the grammar returns one segment node for it), yet `parse_filter`
succeeds with an empty field sequence — the claim "one Field per dotted
segment" fails, because an empty quoted name reduces to an empty `name` and
the segment is dropped. -/
theorem claim1_counterexample :
    filterParse ".\"\"" = .ok [[⟨Rule.quoted_name, "", ⟨2, 2⟩⟩]] ∧
      parse_filter ".\"\"" = .ok ([] : List Field) :=
  ⟨rfl, rfl⟩

/-- Claim C1 (amended): the three-segment example parses to its three fields in
source order, and in general a successful parse returns, in textual
left-to-right segment order, the field contributed by each segment — at most
one per dotted segment, exactly one for every segment whose reduced name is
non-empty. -/
theorem claim1_order :
    parse_filter ".a_name\x7b\"l1\"\x7d.b_name\x7b\"l2\"\x7d.c_name" =
      .ok [⟨"a_name", ["l1"], none⟩, ⟨"b_name", ["l2"], none⟩,
        ⟨"c_name", [], none⟩] ∧
    ∀ (input : String) (segs : List Segment) (fields : List Field),
      filterParse input = .ok segs → parse_filter input = .ok fields →
      fields = segs.filterMap segmentField := by
  refine ⟨rfl, ?_⟩
  intro input segs fields hp hf
  unfold parse_filter at hf
  rw [hp] at hf
  exact reducePairs_eq_filterMap segs fields hf

/-- Witness for C1: the general part applied to the input `.a_name`. -/
theorem claim1_order_witness :
    [Field.mk "a_name" [] none] =
      List.filterMap segmentField [[⟨Rule.name, "a_name", ⟨1, 7⟩⟩]] :=
  claim1_order.2 ".a_name" [[⟨Rule.name, "a_name", ⟨1, 7⟩⟩]]
    [Field.mk "a_name" [] none] rfl rfl

/-- Claim C2: `parse_filter` rejects the empty input, an input without a leading
dot, a name starting with a digit, a trailing dot with no following name, an
unterminated quote, and a non-numeric index. -/
theorem claim2_rejects :
    isOk (parse_filter "") = false ∧
    isOk (parse_filter "a_name") = false ∧
    isOk (parse_filter ".00asdf") = false ∧
    isOk (parse_filter ".a_name.") = false ∧
    isOk (parse_filter ".\"unterminated") = false ∧
    isOk (parse_filter ".a_name[abc]") = false :=
  ⟨rfl, rfl, rfl, rfl, rfl, rfl⟩

/-- Claim C3: on any input the grammar accepts, if some `numeric_index` pair of the
parse tree carries a value exceeding `USIZE_MAX` (the first such pair in
document order being `q`), then `parse_filter` fails with the index-overflow
error — `ParsingError` with empty positives and `[numeric_index]` as
negatives — positioned at `q`'s span; it neither wraps nor truncates. -/
theorem claim3_index_overflow (input : String) (segs : List Segment)
    (q : Pair) (hp : filterParse input = .ok segs)
    (hf : segs.flatten.find? overflows = some q) :
    parse_filter input =
      .error ⟨.parsingError [] [Rule.numeric_index], q.span⟩ := by
  unfold parse_filter
  rw [hp]
  exact reducePairs_error_of_find segs (filterParse_good hp) q hf

/-- Witness for C3: the index literal `18446744073709551616` (that is,
`2 ^ 64`, one past `usize::MAX`) makes `parse_filter` fail with the overflow
error at the literal's span, bytes 3 to 23. -/
theorem claim3_witness :
    parse_filter ".a[18446744073709551616]" =
      .error ⟨.parsingError [] [Rule.numeric_index], ⟨3, 23⟩⟩ :=
  claim3_index_overflow ".a[18446744073709551616]"
    [[⟨Rule.name, "a", ⟨1, 2⟩⟩,
      ⟨Rule.numeric_index, "18446744073709551616", ⟨3, 23⟩⟩]]
    ⟨Rule.numeric_index, "18446744073709551616", ⟨3, 23⟩⟩ rfl rfl

/-- Claim C4 (counterexample): the input `.a{"x"}[0]` parses successfully to a
single `Field` carrying both a non-empty label list and a present index, so
such a combination is not syntactically impossible under the grammar. -/
theorem claim4_counterexample :
    parse_filter ".a\x7b\"x\"\x7d[0]" = .ok [⟨"a", ["x"], some 0⟩] ∧
      (Field.mk "a" ["x"] (some 0)).labels ≠ [] ∧
      (Field.mk "a" ["x"] (some 0)).index ≠ none := by
  refine ⟨rfl, ?_, ?_⟩ <;> simp

/-- Claim C4 (amended): the grammar's qualifier repetition lets labels and an index
coexist on one segment, in either order, and both are retained on the
returned `Field`. -/
theorem claim4_mixed_qualifiers :
    parse_filter ".a\x7b\"x\"\x7d[0]" = .ok [⟨"a", ["x"], some 0⟩] ∧
      parse_filter ".a[0]\x7b\"x\"\x7d" = .ok [⟨"a", ["x"], some 0⟩] :=
  ⟨rfl, rfl⟩

/-- Claim C5: a segment may chain several label qualifiers; `.a{"x"}{"y"}` parses
to one field retaining both labels in written order. -/
theorem claim5_multi_labels :
    parse_filter ".a\x7b\"x\"\x7d\x7b\"y\"\x7d" =
      .ok [⟨"a", ["x", "y"], none⟩] :=
  rfl

/-- Claim C6: `.a_name{"a_label"}` parses to one field named `a_name` whose labels
are exactly `["a_label"]` — the label stored as the unquoted string contents
— and with no index. -/
theorem claim6_label_field :
    parse_filter ".a_name\x7b\"a_label\"\x7d" =
      .ok [⟨"a_name", ["a_label"], none⟩] :=
  rfl

/-- Claim C7: `.a_name[0]` parses to one field named `a_name` with empty labels and
index `some 0`. -/
theorem claim7_index_field :
    parse_filter ".a_name[0]" = .ok [⟨"a_name", [], some 0⟩] :=
  rfl

/-- Claim C8: a segment whose reduction yields an empty name is silently dropped —
`reducePairs` over it equals `reducePairs` over the remaining segments, not
an error — and consequently every field of a successful `parse_filter` run
has a non-empty name. -/
theorem claim8_empty_name_dropped :
    (∀ (seg : Segment) (rest : List Segment) (l : List String)
        (i : Option Nat),
        reduceChildren seg "" [] none = .ok ("", l, i) →
        reducePairs (seg :: rest) = reducePairs rest) ∧
    ∀ (input : String) (fields : List Field),
      parse_filter input = .ok fields → ∀ f ∈ fields, f.name ≠ "" := by
  constructor
  · exact fun seg rest l i h => reducePairs_drops_empty seg rest l i h
  · intro input fields h f hf
    unfold parse_filter at h
    cases hp : filterParse input with
    | error e => rw [hp] at h; cases h
    | ok segs =>
      rw [hp] at h
      rw [reducePairs_eq_filterMap segs fields h] at hf
      obtain ⟨seg, -, hsf⟩ := List.mem_filterMap.mp hf
      exact segmentField_name_ne seg f hsf

/-- Witness for C8: the empty-quoted-name segment is dropped without an
error, and the field parsed from `.a_name` has a non-empty name. -/
theorem claim8_witness :
    reducePairs [[⟨Rule.quoted_name, "", ⟨2, 2⟩⟩]] = reducePairs [] ∧
      (Field.mk "a_name" [] none).name ≠ "" :=
  ⟨claim8_empty_name_dropped.1 [⟨Rule.quoted_name, "", ⟨2, 2⟩⟩] [] [] none rfl,
    claim8_empty_name_dropped.2 ".a_name" [Field.mk "a_name" [] none] rfl
      (Field.mk "a_name" [] none) (by simp)⟩

/-- Claim C9: `parse_filter` is deterministic — two runs on the same input yield
the same result. -/
theorem claim9_deterministic (input : String)
    (r1 r2 : Except FilterError (List Field))
    (h1 : parse_filter input = r1) (h2 : parse_filter input = r2) :
    r1 = r2 :=
  h1.symm.trans h2

/-- Witness for C9: two runs on `.a_name` agree. -/
theorem claim9_witness :
    (Except.ok [Field.mk "a_name" [] none] :
        Except FilterError (List Field)) =
      Except.ok [Field.mk "a_name" [] none] :=
  claim9_deterministic ".a_name" (Except.ok [Field.mk "a_name" [] none])
    (Except.ok [Field.mk "a_name" [] none]) rfl rfl

/-- Claim C10: a repeated index qualifier is not an error: each successfully parsed
`numeric_index` child overwrites the accumulated index, so the emitted field
carries the last one, as `.a[0][1]` shows. -/
theorem claim10_last_index_wins :
    (∀ (p : Pair) (rest : List Pair) (name : String) (labels : List String)
        (i0 : Option Nat) (j : Nat),
        p.rule = Rule.numeric_index → parseUsize p.text = some j →
        reduceChildren (p :: rest) name labels i0 =
          reduceChildren rest name labels (some j)) ∧
    parse_filter ".a[0][1]" = .ok [⟨"a", [], some 1⟩] := by
  refine ⟨?_, rfl⟩
  intro p rest name labels i0 j hr hp
  simp only [reduceChildren, hr, hp]

/-- Witness for C10: a `numeric_index` child holding `7` overwrites an
accumulated index `0`. -/
theorem claim10_witness :
    reduceChildren [⟨Rule.numeric_index, "7", ⟨0, 1⟩⟩] "a" [] (some 0) =
      reduceChildren [] "a" [] (some 7) :=
  claim10_last_index_wins.1 ⟨Rule.numeric_index, "7", ⟨0, 1⟩⟩ [] "a" []
    (some 0) 7 rfl rfl

end Hq
